import Mathlib

/-!
Verification development for the genealogy-network component and the
edit-contact dialog of the repository.

The TypeScript source is embedded shallowly:

* `Contact` / `Cell` mirror the raw records consumed by `GenealogyNetwork`.
* `MemberNode` mirrors the `MemberNode` interface.
* `calculateMemberLevel` and `calculateTotalDescendants` are the two
  recursive helpers of `GenealogyNetwork.tsx`.  The JavaScript versions are
  partial (they diverge on cyclic referral data), so the embedding adds a
  fuel parameter and returns `none` when the fuel is exhausted.  A fuel of
  `length + 1` is exactly the termination threshold of the source: a run
  that exhausts that much fuel must have visited some id twice, and the
  deterministic JavaScript recursion would then loop forever.
* `processFrom` mirrors the `allMembers.forEach` block (lines 95-102),
  including the in-place mutation order: when member `k` is processed, the
  members after it still carry their initial empty `referrals` arrays.
* `handleSave` mirrors the save handler of `EditContactDialog`.
-/

/-- Raw contact record as consumed by the genealogy view and the dialog.
Nullable text columns are `Option String`; `none` is JavaScript `null`. -/
structure Contact where
  id : String
  name : String
  whatsapp : Option String
  neighborhood : String
  status : String
  cell_id : Option String
  referred_by : Option String
  baptized : Bool
  encounter_with_god : Bool
  photo_url : Option String
  deriving Repr, DecidableEq

/-- Raw cell record. -/
structure Cell where
  id : String
  name : String
  leader_name : Option String
  deriving Repr, DecidableEq

/-- The `MemberNode` interface of `GenealogyNetwork.tsx`. -/
structure MemberNode where
  id : String
  name : String
  leader : String
  cell : String
  status : String
  referredBy : Option String
  referrals : List String
  whatsapp : Option String
  neighborhood : String
  baptized : Bool
  encounterWithGod : Bool
  level : Nat
  totalDescendants : Nat
  photo_url : Option String
  deriving Repr, DecidableEq

/-- JavaScript truthiness of a nullable string: `null` and `""` are falsy. -/
def jsTruthy : Option String → Bool
  | none => false
  | some s => s ≠ ""

/-- JavaScript `x || null` on a nullable string. -/
def jsOrNull : Option String → Option String
  | none => none
  | some s => if s = "" then none else some s

/-- JavaScript `x || dflt` on a nullable string with a string default. -/
def jsOr (x : Option String) (dflt : String) : String :=
  match x with
  | none => dflt
  | some s => if s = "" then dflt else s

/-- Lookup in the JavaScript `Map` built from the cell list; for duplicate
keys a JavaScript `Map` keeps the last binding, hence the `reverse`. -/
def cellsMapGet (cells : List Cell) (cid : String) : Option Cell :=
  cells.reverse.find? (fun c => c.id == cid)

/-- Projection of one contact to a `MemberNode` (lines 73-92 of
`GenealogyNetwork.tsx`); `referrals`, `level` and `totalDescendants` start
at their initial values and are filled in by the `forEach` pass. -/
def toMemberNode (cells : List Cell) (contact : Contact) : MemberNode :=
  let cell : Option Cell :=
    match contact.cell_id with
    | none => none
    | some cid => if cid = "" then none else cellsMapGet cells cid
  { id := contact.id
    name := contact.name
    leader := jsOr (cell.bind (fun c => c.leader_name)) "Sem líder"
    cell := jsOr (cell.map (fun c => c.name)) "Sem célula"
    status := contact.status
    referredBy := jsOrNull contact.referred_by
    referrals := []
    whatsapp := contact.whatsapp
    neighborhood := contact.neighborhood
    baptized := contact.baptized
    encounterWithGod := contact.encounter_with_god
    level := 0
    totalDescendants := 0
    photo_url := jsOrNull contact.photo_url }

/-- The member list before the `forEach` pass runs. -/
def initialMembers (cells : List Cell) (contacts : List Contact) : List MemberNode :=
  contacts.map (toMemberNode cells)

/-- Fuelled embedding of `calculateMemberLevel` (lines 395-399).  `none`
means the JavaScript recursion would still be running after `fuel` nested
calls; with fuel `members.length + 1` that only happens on cyclic data,
where the original diverges. -/
def calculateMemberLevel (members : List MemberNode) : Nat → String → Option Nat
  | 0, _ => none
  | fuel + 1, memberId =>
    match members.find? (fun m => m.id == memberId) with
    | none => some 0
    | some member =>
      match member.referredBy with
      | none => some 0
      | some r =>
        if r = "" then some 0
        else (calculateMemberLevel members fuel r).map (fun v => v + 1)

/-- The `total += calculateTotalDescendants(childId, members)` loop of
`calculateTotalDescendants`, abstracted over the recursive call. -/
def descendantsFold (f : String → Option Nat) : List String → Option Nat
  | [] => some 0
  | childId :: rest =>
    match f childId with
    | none => none
    | some d =>
      match descendantsFold f rest with
      | none => none
      | some s => some (d + s)

/-- Fuelled embedding of `calculateTotalDescendants` (lines 401-411). -/
def calculateTotalDescendants (members : List MemberNode) : Nat → String → Option Nat
  | 0, _ => none
  | fuel + 1, memberId =>
    match members.find? (fun m => m.id == memberId) with
    | none => some 0
    | some member =>
      match descendantsFold (fun c => calculateTotalDescendants members fuel c)
          member.referrals with
      | none => none
      | some s => some (member.referrals.length + s)

/-- The referral list computed for one member (lines 96-98): ids of all
members whose `referredBy` equals this member's id, in input order. -/
def referralsOf (all : List MemberNode) (memberId : String) : List String :=
  (all.filter (fun m => m.referredBy == some memberId)).map (fun m => m.id)

/-- One iteration of the `allMembers.forEach` block (lines 95-102) for the
member at the current position: fill `referrals`, then `level`, then
`totalDescendants`, each step reading the partially updated array
`done ++ current :: rest`. -/
def fillMember (done : List MemberNode) (member : MemberNode)
    (rest : List MemberNode) : Option MemberNode :=
  let m1 : MemberNode := { member with referrals := referralsOf (done ++ member :: rest) member.id }
  let all1 := done ++ m1 :: rest
  match calculateMemberLevel all1 (all1.length + 1) m1.id with
  | none => none
  | some lvl =>
    let m2 : MemberNode := { m1 with level := lvl }
    let all2 := done ++ m2 :: rest
    match calculateTotalDescendants all2 (all2.length + 1) m2.id with
    | none => none
    | some td => some { m2 with totalDescendants := td }

/-- Embedding of the `allMembers.forEach` block (lines 95-102).  The
JavaScript loop mutates the array in place, so each member's `level` and
`totalDescendants` are computed against the partially updated array:
`done` holds the already processed members, the tail is still initial. -/
def processFrom (done : List MemberNode) : List MemberNode → Option (List MemberNode)
  | [] => some done
  | member :: rest =>
    match fillMember done member rest with
    | none => none
    | some m3 => processFrom (done ++ [m3]) rest

/-- The member list produced by the `useMemo` (lines 65-114) before the
connected/standby split; `none` when the source recursion would diverge. -/
def deriveMembers (cells : List Cell) (contacts : List Contact) : Option (List MemberNode) :=
  if contacts.length = 0 then some []
  else processFrom [] (initialMembers cells contacts)

/-- Connected members (lines 105-107): a referrer or at least one referral. -/
def connectedMembersOf (ms : List MemberNode) : List MemberNode :=
  ms.filter (fun m => jsTruthy m.referredBy || m.referrals.length > 0)

/-- Standby members (lines 109-111): neither a referrer nor referrals. -/
def standbyMembersOf (ms : List MemberNode) : List MemberNode :=
  ms.filter (fun m => !jsTruthy m.referredBy && m.referrals.length == 0)

/-- Projection of a member to the fields that drive the referral relation
and the level recursion; these fields are never changed by the pipeline. -/
def refKey (m : MemberNode) : String × Option String := (m.id, m.referredBy)

/-- The referral relation of a member list: `RefersTo l a b` holds when
some member with id `a` has `b` recorded as its referrer. -/
def RefersTo (l : List MemberNode) (a b : String) : Prop :=
  (a, some b) ∈ l.map refKey

/-- Acyclicity of the referral relation. -/
def AcyclicMembers (l : List MemberNode) : Prop :=
  ∀ a, ¬ Relation.TransGen (RefersTo l) a a

/-- Every id stored in a `referrals` field really is a referral of that
member according to the referral relation.  Holds for the initial list
(all `referrals` are empty) and is preserved by the pipeline. -/
def FieldsOK (l : List MemberNode) : Prop :=
  ∀ m ∈ l, ∀ c ∈ m.referrals, RefersTo l c m.id

/-- Visibility predicate of the genealogy view (lines 160-171): level
filtering and expansion, overridden entirely by a focused level. -/
def isVisible (visibleLevels : Finset Nat) (expandedNodes : Finset String)
    (focusedLevel : Option Nat) (member : MemberNode) : Bool :=
  let shouldShowByLevel := decide (member.level ∈ visibleLevels)
  let shouldShowByExpansion := member.level == 0 || decide (member.id ∈ expandedNodes) ||
    (match member.referredBy with
     | none => false
     | some r => decide (r ≠ "") && decide (r ∈ expandedNodes))
  match focusedLevel with
  | some fl => member.level == fl
  | none => shouldShowByLevel && shouldShowByExpansion

/-- The `visibleMembers` filter (lines 160-171). -/
def visibleMembersOf (connectedMembers : List MemberNode) (visibleLevels : Finset Nat)
    (expandedNodes : Finset String) (focusedLevel : Option Nat) : List MemberNode :=
  connectedMembers.filter (isVisible visibleLevels expandedNodes focusedLevel)

/-- Edge construction (lines 194-210), reduced to (source, target) id
pairs; an edge is pushed only when the member has a truthy referrer that
is found among the visible members. -/
def edgesOf (visibleMembers : List MemberNode) : List (String × String) :=
  visibleMembers.filterMap (fun member =>
    match member.referredBy with
    | none => none
    | some r =>
      if r ≠ "" ∧ (visibleMembers.find? (fun m => m.id == r)).isSome
      then some (r, member.id) else none)

/-- The expansion toggle callback (lines 116-129): a no-op unless the id
is found among the connected members with a nonempty referral list. -/
def toggleNodeExpansion (connectedMembers : List MemberNode)
    (expandedNodes : Finset String) (nodeId : String) : Finset String :=
  match connectedMembers.find? (fun m => m.id == nodeId) with
  | none => expandedNodes
  | some member =>
    if member.referrals.length > 0 then
      if nodeId ∈ expandedNodes then expandedNodes.erase nodeId
      else insert nodeId expandedNodes
    else expandedNodes

/-- The fields of the contact row that `EditContactDialog.handleSave`
reads: `contact.id`, `contact.status` and `contact.cell_id`. -/
structure ContactRow where
  id : String
  status : String
  cell_id : Option String
  deriving Repr, DecidableEq

/-- The dialog form state; the JavaScript keeps text fields as strings
with `""` for unset, and `photo_url` nullable. -/
structure EditForm where
  name : String
  whatsapp : String
  email : String
  neighborhood : String
  city_id : String
  birth_date : String
  encounter_with_god : Bool
  baptized : Bool
  status : String
  cell_id : String
  referred_by : String
  photo_url : Option String
  founder : Bool
  leader_id : String
  deriving Repr, DecidableEq

/-- The update payload passed to `updateContact`. -/
structure UpdateData where
  name : String
  whatsapp : String
  neighborhood : String
  city_id : Option String
  birth_date : Option String
  encounter_with_god : Bool
  baptized : Bool
  status : String
  cell_id : Option String
  referred_by : Option String
  photo_url : Option String
  founder : Bool
  leader_id : Option String
  deriving Repr, DecidableEq

/-- The `newStatus` computation and payload construction inside
`handleSave` (dialog source, lines 169-200). -/
def buildUpdateData (contact : ContactRow) (form : EditForm) : UpdateData :=
  let newStatus :=
    if form.cell_id ≠ "" ∧ contact.cell_id ≠ some form.cell_id then "member"
    else if form.cell_id = "" ∧ jsTruthy contact.cell_id then "pending"
    else contact.status
  let referredByValue :=
    if form.referred_by ≠ "" ∧ form.referred_by ≠ "no-referral" then some form.referred_by
    else none
  let leaderIdValue := if form.leader_id ≠ "" then some form.leader_id else none
  { name := form.name
    whatsapp := form.whatsapp
    neighborhood := form.neighborhood
    city_id := if form.city_id = "" then none else some form.city_id
    birth_date := if form.birth_date = "" then none else some form.birth_date
    encounter_with_god := form.encounter_with_god
    baptized := form.baptized
    status := newStatus
    cell_id := if form.cell_id = "" then none else some form.cell_id
    referred_by := referredByValue
    photo_url := form.photo_url
    founder := form.founder
    leader_id := leaderIdValue }

/-- Embedding of `handleSave` (dialog source, lines 155-220): `none`
models the validation abort (the destructive toast is shown and
`updateContact` is never called); `some u` models the single
`updateContact(contact.id, u)` call. -/
def handleSave (contact : ContactRow) (form : EditForm) : Option UpdateData :=
  if form.name = "" ∨ form.whatsapp = "" ∨ form.neighborhood = "" then none
  else some (buildUpdateData contact form)

/-- A save round-trip against an abstract contact store: the external
update operation runs only when `handleSave` produced a payload. -/
def runSave (applyUpdate : List ContactRow → String → UpdateData → List ContactRow)
    (db : List ContactRow) (contact : ContactRow) (form : EditForm) : List ContactRow :=
  match handleSave contact form with
  | none => db
  | some u => applyUpdate db contact.id u

/-- Scenario contact A: no referrer. -/
def contactA : Contact :=
  { id := "A", name := "Ana", whatsapp := some "111", neighborhood := "Centro",
    status := "member", cell_id := none, referred_by := none, baptized := false,
    encounter_with_god := false, photo_url := none }

/-- Scenario contact B: referred by A. -/
def contactB : Contact := { contactA with id := "B", name := "Bia", referred_by := some "A" }

/-- Scenario contact C: referred by B. -/
def contactC : Contact := { contactA with id := "C", name := "Caio", referred_by := some "B" }

/-- Contact whose referrer id matches no contact in the list. -/
def contactGhost : Contact :=
  { contactA with id := "X", name := "Xis", referred_by := some "GHOST" }

/-- Rank function witnessing acyclicity of the A-B-C referral chain. -/
def rankABC : String → Nat := fun s => if s = "C" then 2 else if s = "B" then 1 else 0

/-- The member derived from `contactGhost` by the pipeline. -/
def ghostMember : MemberNode :=
  { id := "X", name := "Xis", leader := "Sem líder", cell := "Sem célula",
    status := "member", referredBy := some "GHOST", referrals := [],
    whatsapp := some "111", neighborhood := "Centro", baptized := false,
    encounterWithGod := false, level := 1, totalDescendants := 0, photo_url := none }

/-- A concrete root member with one referral, for visibility scenarios. -/
def memberA : MemberNode :=
  { id := "A", name := "Ana", leader := "Sem líder", cell := "Sem célula",
    status := "member", referredBy := none, referrals := ["B"],
    whatsapp := some "111", neighborhood := "Centro", baptized := false,
    encounterWithGod := false, level := 0, totalDescendants := 1, photo_url := none }

/-- A concrete leaf member referred by `memberA`. -/
def memberB : MemberNode :=
  { id := "B", name := "Bia", leader := "Sem líder", cell := "Sem célula",
    status := "member", referredBy := some "A", referrals := [],
    whatsapp := some "111", neighborhood := "Centro", baptized := false,
    encounterWithGod := false, level := 1, totalDescendants := 0, photo_url := none }

/-- A concrete contact row for the edit dialog scenarios. -/
def contactRow1 : ContactRow := { id := "1", status := "visitor", cell_id := none }

/-- A fully valid form that assigns a new cell. -/
def validForm : EditForm :=
  { name := "Ana", whatsapp := "111", email := "", neighborhood := "Centro",
    city_id := "", birth_date := "", encounter_with_god := false, baptized := false,
    status := "visitor", cell_id := "c1", referred_by := "", photo_url := none,
    founder := false, leader_id := "" }

/-- A form with the required name field left empty. -/
def formMissingName : EditForm := { validForm with name := "" }

theorem refersTo_congr {l l2 : List MemberNode} (h : l.map refKey = l2.map refKey) :
    RefersTo l = RefersTo l2 := by
  funext a b
  simp only [RefersTo, h]

theorem acyclic_congr {l l2 : List MemberNode} (h : l.map refKey = l2.map refKey) :
    AcyclicMembers l ↔ AcyclicMembers l2 := by
  unfold AcyclicMembers
  rw [refersTo_congr h]

theorem find?_refKey_congr :
    ∀ {l l2 : List MemberNode}, l.map refKey = l2.map refKey →
    ∀ i, (l.find? (fun m => m.id == i)).map refKey
        = (l2.find? (fun m => m.id == i)).map refKey := by
  intro l
  induction l with
  | nil =>
    intro l2 h i
    cases l2 with
    | nil => rfl
    | cons m2 t2 => simp at h
  | cons m t ih =>
    intro l2 h i
    cases l2 with
    | nil => simp at h
    | cons m2 t2 =>
      simp only [List.map_cons, List.cons.injEq] at h
      obtain ⟨hk, ht⟩ := h
      have hid : m.id = m2.id := congrArg Prod.fst hk
      cases hb : (m2.id == i) with
      | false =>
        rw [List.find?_cons_of_neg _ (by rw [hid]; simp [hb]),
          List.find?_cons_of_neg _ (by simp [hb])]
        exact ih ht i
      | true =>
        rw [List.find?_cons_of_pos _ (by rw [hid]; simp [hb]),
          List.find?_cons_of_pos _ (by simp [hb])]
        simp [hk]

theorem calculateMemberLevel_succ (l : List MemberNode) (fuel : Nat) (i : String) :
    calculateMemberLevel l (fuel + 1) i =
      match l.find? (fun m => m.id == i) with
      | none => some 0
      | some member =>
        match member.referredBy with
        | none => some 0
        | some r =>
          if r = "" then some 0
          else (calculateMemberLevel l fuel r).map (fun v => v + 1) := rfl

theorem calculateMemberLevel_congr {l l2 : List MemberNode}
    (h : l.map refKey = l2.map refKey) :
    ∀ fuel i, calculateMemberLevel l fuel i = calculateMemberLevel l2 fuel i := by
  intro fuel
  induction fuel with
  | zero => intro i; rfl
  | succ fuel ih =>
    intro i
    have hf := find?_refKey_congr h i
    rw [calculateMemberLevel_succ, calculateMemberLevel_succ]
    cases h1 : l.find? (fun m => m.id == i) with
    | none =>
      cases h2 : l2.find? (fun m => m.id == i) with
      | none => rfl
      | some m2 => rw [h1, h2] at hf; simp at hf
    | some m =>
      cases h2 : l2.find? (fun m => m.id == i) with
      | none => rw [h1, h2] at hf; simp at hf
      | some m2 =>
        rw [h1, h2] at hf
        simp only [Option.map_some', Option.some.injEq] at hf
        have hrb : m.referredBy = m2.referredBy := congrArg Prod.snd hf
        simp only [] 
        rw [hrb]
        cases m2.referredBy with
        | none => rfl
        | some r =>
          by_cases hr : r = "" <;> simp [hr, ih r]

theorem calculateMemberLevel_mono (l : List MemberNode) :
    ∀ fuel i v, calculateMemberLevel l fuel i = some v →
      calculateMemberLevel l (fuel + 1) i = some v := by
  intro fuel
  induction fuel with
  | zero =>
    intro i v h
    simp [calculateMemberLevel] at h
  | succ fuel ih =>
    intro i v h
    rw [calculateMemberLevel_succ] at h
    rw [calculateMemberLevel_succ]
    cases h1 : l.find? (fun m => m.id == i) with
    | none =>
      simp only [h1] at h
      exact h
    | some m =>
      simp only [h1] at h
      show (match m.referredBy with
        | none => some 0
        | some r =>
          if r = "" then some 0
          else (calculateMemberLevel l (fuel + 1) r).map (fun v => v + 1)) = some v
      cases hrb : m.referredBy with
      | none =>
        simp only [hrb] at h
        exact h
      | some r =>
        simp only [hrb] at h
        show (if r = "" then some 0
          else (calculateMemberLevel l (fuel + 1) r).map (fun v => v + 1)) = some v
        by_cases hr : r = ""
        · rw [if_pos hr] at h ⊢; exact h
        · rw [if_neg hr] at h ⊢
          obtain ⟨w, hw, hv⟩ := Option.map_eq_some'.mp h
          rw [ih r w hw]
          simp [hv]

theorem calculateMemberLevel_none_chain (l : List MemberNode) :
    ∀ fuel i, calculateMemberLevel l fuel i = none →
      ∃ g : Nat → String, g 0 = i ∧
        ∀ j < fuel, ∃ m, l.find? (fun x => x.id == g j) = some m ∧
          m.referredBy = some (g (j + 1)) := by
  intro fuel
  induction fuel with
  | zero =>
    intro i _
    exact ⟨fun _ => i, rfl, fun j hj => absurd hj (Nat.not_lt_zero j)⟩
  | succ fuel ih =>
    intro i h
    rw [calculateMemberLevel_succ] at h
    cases h1 : l.find? (fun x => x.id == i) with
    | none => simp [h1] at h
    | some m =>
      simp only [h1] at h
      cases hrb : m.referredBy with
      | none => simp [hrb] at h
      | some r =>
        simp only [hrb] at h
        by_cases hr : r = ""
        · rw [if_pos hr] at h; simp at h
        · rw [if_neg hr] at h
          have hnone : calculateMemberLevel l fuel r = none := by
            cases hcl : calculateMemberLevel l fuel r with
            | none => rfl
            | some w => rw [hcl] at h; simp at h
          obtain ⟨g, hg0, hgs⟩ := ih r hnone
          refine ⟨fun j => match j with | 0 => i | j + 1 => g j, rfl, ?_⟩
          intro j hj
          match j with
          | 0 =>
            refine ⟨m, h1, ?_⟩
            show m.referredBy = some (g 0)
            rw [hrb, hg0]
          | j + 1 =>
            exact hgs j (by omega)

theorem chain_repeat (g : Nat → String) (ids : List String)
    (hmem : ∀ j, j ≤ ids.length → g j ∈ ids) :
    ∃ a b, a < b ∧ b ≤ ids.length ∧ g a = g b := by
  have hcard : ids.toFinset.card < (Finset.univ : Finset (Fin (ids.length + 1))).card := by
    have h1 : ids.toFinset.card ≤ ids.length := ids.toFinset_card_le
    have h2 : (Finset.univ : Finset (Fin (ids.length + 1))).card = ids.length + 1 := by
      simp
    omega
  have hmaps : ∀ x ∈ (Finset.univ : Finset (Fin (ids.length + 1))),
      g x.val ∈ ids.toFinset := by
    intro x _
    exact List.mem_toFinset.mpr (hmem x.val (Nat.lt_succ_iff.mp x.isLt))
  obtain ⟨x, _, y, _, hxy, hgxy⟩ :=
    Finset.exists_ne_map_eq_of_card_lt_of_maps_to hcard hmaps
  rcases Nat.lt_or_ge x.val y.val with hlt | hge
  · exact ⟨x.val, y.val, hlt, Nat.lt_succ_iff.mp y.isLt, hgxy⟩
  · have hne : x.val ≠ y.val := fun hv => hxy (Fin.ext hv)
    have hlt : y.val < x.val := by omega
    exact ⟨y.val, x.val, hlt, Nat.lt_succ_iff.mp x.isLt, hgxy.symm⟩

theorem transGen_of_chain {α : Type} (R : α → α → Prop) (g : Nat → α) :
    ∀ b a, a < b → (∀ j, a ≤ j → j < b → R (g j) (g (j + 1))) →
      Relation.TransGen R (g a) (g b) := by
  intro b
  induction b with
  | zero => intro a ha _; exact absurd ha (Nat.not_lt_zero a)
  | succ b ih =>
    intro a ha hstep
    rcases Nat.lt_succ_iff_lt_or_eq.mp ha with h | h
    · exact Relation.TransGen.tail (ih a h (fun j hj1 hj2 => hstep j hj1 (by omega)))
        (hstep b (by omega) (by omega))
    · subst h
      exact Relation.TransGen.single (hstep a (le_refl a) (by omega))

theorem calculateMemberLevel_isSome (l : List MemberNode) (hacy : AcyclicMembers l)
    {fuel : Nat} (hf : l.length < fuel) (i : String) :
    (calculateMemberLevel l fuel i).isSome := by
  cases hnone : calculateMemberLevel l fuel i with
  | some v => rfl
  | none =>
    exfalso
    obtain ⟨g, _, hgs⟩ := calculateMemberLevel_none_chain l fuel i hnone
    have hlen : (l.map (fun m => m.id)).length = l.length := l.length_map _
    have hmem : ∀ j, j ≤ (l.map (fun m => m.id)).length → g j ∈ l.map (fun m => m.id) := by
      intro j hj
      obtain ⟨m, hm, _⟩ := hgs j (by omega)
      have hmm : m ∈ l := List.mem_of_find?_eq_some hm
      have hid : m.id = g j := by simpa using List.find?_some hm
      exact List.mem_map.mpr ⟨m, hmm, hid⟩
    obtain ⟨a, b, hab, hble, heq⟩ := chain_repeat g (l.map (fun m => m.id)) hmem
    have hsteps : ∀ j, a ≤ j → j < b → RefersTo l (g j) (g (j + 1)) := by
      intro j _ hj
      obtain ⟨m, hm, hrb⟩ := hgs j (by omega)
      have hmm : m ∈ l := List.mem_of_find?_eq_some hm
      have hid : m.id = g j := by simpa using List.find?_some hm
      exact List.mem_map.mpr ⟨m, hmm, by simp [refKey, hid, hrb]⟩
    have htg := transGen_of_chain (RefersTo l) g b a hab hsteps
    rw [heq] at htg
    exact hacy (g b) htg

theorem calculateTotalDescendants_succ (l : List MemberNode) (fuel : Nat) (i : String) :
    calculateTotalDescendants l (fuel + 1) i =
      match l.find? (fun m => m.id == i) with
      | none => some 0
      | some member =>
        match descendantsFold (fun c => calculateTotalDescendants l fuel c)
            member.referrals with
        | none => none
        | some s => some (member.referrals.length + s) := rfl

theorem descendantsFold_none {f : String → Option Nat} :
    ∀ {cs : List String}, descendantsFold f cs = none → ∃ c ∈ cs, f c = none := by
  intro cs
  induction cs with
  | nil => intro h; simp [descendantsFold] at h
  | cons c rest ih =>
    intro h
    rw [descendantsFold] at h
    cases hc : f c with
    | none => exact ⟨c, List.mem_cons_self c rest, hc⟩
    | some d =>
      simp only [hc] at h
      cases hr : descendantsFold f rest with
      | none =>
        obtain ⟨c2, hc2, hfc2⟩ := ih hr
        exact ⟨c2, List.mem_cons_of_mem c hc2, hfc2⟩
      | some s => simp [hr] at h

theorem calculateTotalDescendants_none_chain (l : List MemberNode) :
    ∀ fuel i, calculateTotalDescendants l fuel i = none →
      ∃ g : Nat → String, g 0 = i ∧
        ∀ j < fuel, ∃ m, l.find? (fun x => x.id == g j) = some m ∧
          g (j + 1) ∈ m.referrals := by
  intro fuel
  induction fuel with
  | zero =>
    intro i _
    exact ⟨fun _ => i, rfl, fun j hj => absurd hj (Nat.not_lt_zero j)⟩
  | succ fuel ih =>
    intro i h
    rw [calculateTotalDescendants_succ] at h
    cases h1 : l.find? (fun x => x.id == i) with
    | none => simp [h1] at h
    | some m =>
      simp only [h1] at h
      have hnone : descendantsFold (fun c => calculateTotalDescendants l fuel c)
          m.referrals = none := by
        cases hdf : descendantsFold (fun c => calculateTotalDescendants l fuel c)
            m.referrals with
        | none => rfl
        | some s => simp [hdf] at h
      obtain ⟨c, hcmem, hcnone⟩ := descendantsFold_none hnone
      obtain ⟨g, hg0, hgs⟩ := ih c hcnone
      refine ⟨fun j => match j with | 0 => i | j + 1 => g j, rfl, ?_⟩
      intro j hj
      match j with
      | 0 =>
        refine ⟨m, h1, ?_⟩
        show g 0 ∈ m.referrals
        rw [hg0]
        exact hcmem
      | j + 1 =>
        exact hgs j (by omega)

theorem calculateTotalDescendants_isSome (l : List MemberNode)
    (hacy : AcyclicMembers l) (hfo : FieldsOK l)
    {fuel : Nat} (hf : l.length < fuel) (i : String) :
    (calculateTotalDescendants l fuel i).isSome := by
  cases hnone : calculateTotalDescendants l fuel i with
  | some v => rfl
  | none =>
    exfalso
    obtain ⟨g, _, hgs⟩ := calculateTotalDescendants_none_chain l fuel i hnone
    have hlen : (l.map (fun m => m.id)).length = l.length := l.length_map _
    have hmem : ∀ j, j ≤ (l.map (fun m => m.id)).length → g j ∈ l.map (fun m => m.id) := by
      intro j hj
      obtain ⟨m, hm, _⟩ := hgs j (by omega)
      have hmm : m ∈ l := List.mem_of_find?_eq_some hm
      have hid : m.id = g j := by simpa using List.find?_some hm
      exact List.mem_map.mpr ⟨m, hmm, hid⟩
    obtain ⟨a, b, hab, hble, heq⟩ := chain_repeat g (l.map (fun m => m.id)) hmem
    have hsteps : ∀ j, a ≤ j → j < b →
        Function.swap (RefersTo l) (g j) (g (j + 1)) := by
      intro j _ hj
      obtain ⟨m, hm, hcm⟩ := hgs j (by omega)
      have hmm : m ∈ l := List.mem_of_find?_eq_some hm
      have hid : m.id = g j := by simpa using List.find?_some hm
      have := hfo m hmm (g (j + 1)) hcm
      rw [hid] at this
      exact this
    have htg := transGen_of_chain (Function.swap (RefersTo l)) g b a hab hsteps
    have htg2 := Relation.transGen_swap.mp htg
    rw [heq] at htg2
    exact hacy (g b) htg2

theorem map_refKey_middle (done rest : List MemberNode) (x y : MemberNode)
    (h : refKey x = refKey y) :
    (done ++ x :: rest).map refKey = (done ++ y :: rest).map refKey := by
  simp [h]

theorem referralsOf_refersTo {all : List MemberNode} {i c : String}
    (h : c ∈ referralsOf all i) : RefersTo all c i := by
  simp only [referralsOf, List.mem_map, List.mem_filter] at h
  obtain ⟨m, ⟨hm, hrb⟩, hid⟩ := h
  exact List.mem_map.mpr ⟨m, hm, by simp [refKey, hid]; exact beq_iff_eq.mp hrb⟩

theorem fieldsOK_update (done rest : List MemberNode) (member x : MemberNode)
    (hx : refKey x = refKey member)
    (hxr : ∀ c ∈ x.referrals, RefersTo (done ++ member :: rest) c x.id)
    (hfo : FieldsOK (done ++ member :: rest)) :
    FieldsOK (done ++ x :: rest) := by
  intro m hm c hc
  have hR : RefersTo (done ++ member :: rest) c m.id →
      RefersTo (done ++ x :: rest) c m.id := by
    rw [refersTo_congr (map_refKey_middle done rest x member hx)]
    exact id
  rcases List.mem_append.mp hm with hmd | hmc
  · exact hR (hfo m (by simp [hmd]) c hc)
  · rcases List.mem_cons.mp hmc with rfl | hmr
    · exact hR (hxr c hc)
    · exact hR (hfo m (by simp [hmr]) c hc)

theorem fillMember_spec {done rest : List MemberNode} {member m3 : MemberNode}
    (h : fillMember done member rest = some m3) :
    refKey m3 = refKey member ∧
    m3.referrals = referralsOf (done ++ member :: rest) member.id ∧
    calculateMemberLevel (done ++ member :: rest) ((done ++ member :: rest).length + 1)
      member.id = some m3.level := by
  unfold fillMember at h
  simp only [] at h
  split at h
  · exact absurd h (by simp)
  · rename_i lvl hlvl
    split at h
    · exact absurd h (by simp)
    · rename_i td htd
      cases h
      refine ⟨rfl, rfl, ?_⟩
      have hkey1 : refKey ({ member with
          referrals := referralsOf (done ++ member :: rest) member.id } : MemberNode)
          = refKey member := rfl
      rw [calculateMemberLevel_congr (map_refKey_middle done rest _ _ hkey1)] at hlvl
      have hlen : (done ++ ({ member with
          referrals := referralsOf (done ++ member :: rest) member.id } : MemberNode)
          :: rest).length = (done ++ member :: rest).length := by simp
      rw [hlen] at hlvl
      exact hlvl

theorem fillMember_isSome (done : List MemberNode) (member : MemberNode)
    (rest : List MemberNode)
    (hacy : AcyclicMembers (done ++ member :: rest))
    (hfo : FieldsOK (done ++ member :: rest)) :
    (fillMember done member rest).isSome := by
  unfold fillMember
  simp only []
  split
  · rename_i hlvl
    exfalso
    have hkey1 : refKey ({ member with
        referrals := referralsOf (done ++ member :: rest) member.id } : MemberNode)
        = refKey member := rfl
    have hacy1 := (acyclic_congr (map_refKey_middle done rest _ _ hkey1)).mpr hacy
    have := calculateMemberLevel_isSome _ hacy1 (Nat.lt_succ_self _) member.id
    rw [hlvl] at this
    simp at this
  · rename_i lvl hlvl
    split
    · rename_i htd
      exfalso
      have hkey2 : refKey ({ { member with
          referrals := referralsOf (done ++ member :: rest) member.id } with
          level := lvl } : MemberNode) = refKey member := rfl
      have hacy2 := (acyclic_congr (map_refKey_middle done rest _ _ hkey2)).mpr hacy
      have hfo2 : FieldsOK (done ++ ({ { member with
          referrals := referralsOf (done ++ member :: rest) member.id } with
          level := lvl } : MemberNode) :: rest) := by
        apply fieldsOK_update done rest member _ hkey2 _ hfo
        intro c hc
        exact referralsOf_refersTo hc
      have := calculateTotalDescendants_isSome _ hacy2 hfo2 (Nat.lt_succ_self _) member.id
      rw [htd] at this
      simp at this
    · simp

theorem processFrom_refKey :
    ∀ (rest done out : List MemberNode), processFrom done rest = some out →
      out.map refKey = (done ++ rest).map refKey := by
  intro rest
  induction rest with
  | nil =>
    intro done out h
    simp only [processFrom, Option.some.injEq] at h
    subst h
    simp
  | cons member rest ih =>
    intro done out h
    rw [processFrom] at h
    cases hfm : fillMember done member rest with
    | none => rw [hfm] at h; simp at h
    | some m3 =>
      rw [hfm] at h
      simp only [] at h
      have hout := ih (done ++ [m3]) out h
      obtain ⟨hkey, _, _⟩ := fillMember_spec hfm
      rw [hout, List.append_assoc]
      exact map_refKey_middle done rest m3 member hkey

theorem processFrom_isSome :
    ∀ (rest done : List MemberNode), AcyclicMembers (done ++ rest) →
      FieldsOK (done ++ rest) → (processFrom done rest).isSome := by
  intro rest
  induction rest with
  | nil => intro done _ _; simp [processFrom]
  | cons member rest ih =>
    intro done hacy hfo
    rw [processFrom]
    cases hfm : fillMember done member rest with
    | none =>
      have := fillMember_isSome done member rest hacy hfo
      rw [hfm] at this
      simp at this
    | some m3 =>
      simp only []
      obtain ⟨hkey, hrefs, _⟩ := fillMember_spec hfm
      have hid3 : m3.id = member.id := congrArg Prod.fst hkey
      have hEq : (done ++ [m3]) ++ rest = done ++ m3 :: rest := by
        rw [List.append_assoc]; rfl
      apply ih
      · rw [hEq]
        exact (acyclic_congr (map_refKey_middle done rest m3 member hkey)).mpr hacy
      · rw [hEq]
        apply fieldsOK_update done rest member m3 hkey _ hfo
        intro c hc
        rw [hrefs] at hc
        rw [hid3]
        exact referralsOf_refersTo hc

theorem processFrom_level :
    ∀ (rest done out : List MemberNode), processFrom done rest = some out →
      (∀ m ∈ done, calculateMemberLevel (done ++ rest) ((done ++ rest).length + 1) m.id
        = some m.level) →
      ∀ m ∈ out, calculateMemberLevel out (out.length + 1) m.id = some m.level := by
  intro rest
  induction rest with
  | nil =>
    intro done out h hinv
    simp only [processFrom, Option.some.injEq] at h
    subst h
    intro m hm
    have := hinv m hm
    simpa using this
  | cons member rest ih =>
    intro done out h hinv
    rw [processFrom] at h
    cases hfm : fillMember done member rest with
    | none => rw [hfm] at h; simp at h
    | some m3 =>
      rw [hfm] at h
      simp only [] at h
      obtain ⟨hkey, hrefs, hlvl⟩ := fillMember_spec hfm
      have hid3 : m3.id = member.id := congrArg Prod.fst hkey
      have hmapeq : (done ++ m3 :: rest).map refKey = (done ++ member :: rest).map refKey :=
        map_refKey_middle done rest m3 member hkey
      have hlencons : (done ++ m3 :: rest).length = (done ++ member :: rest).length := by
        simp
      have hEq : (done ++ [m3]) ++ rest = done ++ m3 :: rest := by
        rw [List.append_assoc]; rfl
      apply ih (done ++ [m3]) out h
      intro m hm
      rw [hEq, hlencons, calculateMemberLevel_congr hmapeq]
      rcases List.mem_append.mp hm with hmd | hm3
      · exact hinv m (by simp [hmd])
      · have hmm3 : m = m3 := by simpa using hm3
        subst hmm3
        rw [hid3]
        exact hlvl

theorem find?_eq_self_of_nodup :
    ∀ {l : List MemberNode}, (l.map (fun m => m.id)).Nodup →
      ∀ {m : MemberNode}, m ∈ l → l.find? (fun x => x.id == m.id) = some m := by
  intro l
  induction l with
  | nil => intro _ m hm; simp at hm
  | cons h t ih =>
    intro hnd m hm
    simp only [List.map_cons, List.nodup_cons] at hnd
    obtain ⟨hhead, htail⟩ := hnd
    rcases List.mem_cons.mp hm with rfl | hmt
    · rw [List.find?_cons_of_pos]
      simp
    · have hne : h.id ≠ m.id := by
        intro heq
        exact hhead (by rw [heq]; exact List.mem_map.mpr ⟨m, hmt, rfl⟩)
      rw [List.find?_cons_of_neg _ (by simp [hne])]
      exact ih htail hmt

theorem refKey_toMemberNode (cells : List Cell) (c : Contact) :
    refKey (toMemberNode cells c) = (c.id, jsOrNull c.referred_by) := rfl

theorem initialMembers_refKey (cells : List Cell) (contacts : List Contact) :
    (initialMembers cells contacts).map refKey
      = contacts.map (fun c => (c.id, jsOrNull c.referred_by)) := by
  rw [initialMembers, List.map_map]
  rfl

theorem jsOrNull_ne_empty {x : Option String} {r : String}
    (h : jsOrNull x = some r) : r ≠ "" := by
  cases x with
  | none => simp [jsOrNull] at h
  | some s =>
    by_cases hs : s = "" <;> simp [jsOrNull, hs] at h
    rw [← h]
    exact hs

theorem derived_refKey {cells : List Cell} {contacts : List Contact}
    {ms : List MemberNode} (hms : deriveMembers cells contacts = some ms) :
    ms.map refKey = contacts.map (fun c => (c.id, jsOrNull c.referred_by)) := by
  unfold deriveMembers at hms
  by_cases hc : contacts.length = 0
  · rw [if_pos hc] at hms
    cases hms
    rw [List.length_eq_zero.mp hc]
    rfl
  · rw [if_neg hc] at hms
    have hmap := processFrom_refKey _ _ _ hms
    rw [List.nil_append] at hmap
    rw [hmap, initialMembers_refKey]

theorem derived_contact_of_mem {cells : List Cell} {contacts : List Contact}
    {ms : List MemberNode} (hms : deriveMembers cells contacts = some ms)
    {m : MemberNode} (hm : m ∈ ms) :
    ∃ c ∈ contacts, c.id = m.id ∧ jsOrNull c.referred_by = m.referredBy := by
  have hmem : refKey m ∈ ms.map refKey := List.mem_map.mpr ⟨m, hm, rfl⟩
  rw [derived_refKey hms] at hmem
  obtain ⟨c, hcmem, hkey⟩ := List.mem_map.mp hmem
  exact ⟨c, hcmem, congrArg Prod.fst hkey, congrArg Prod.snd hkey⟩

theorem derived_ids {cells : List Cell} {contacts : List Contact}
    {ms : List MemberNode} (hms : deriveMembers cells contacts = some ms) :
    ms.map (fun m => m.id) = contacts.map (fun c => c.id) := by
  have h1 : ms.map (fun m => m.id) = (ms.map refKey).map Prod.fst := by
    rw [List.map_map]
    rfl
  rw [h1, derived_refKey hms, List.map_map]
  rfl

theorem derived_level_eq {cells : List Cell} {contacts : List Contact}
    {ms : List MemberNode} (hms : deriveMembers cells contacts = some ms)
    {m : MemberNode} (hm : m ∈ ms) :
    calculateMemberLevel ms (ms.length + 1) m.id = some m.level := by
  unfold deriveMembers at hms
  by_cases hc : contacts.length = 0
  · rw [if_pos hc] at hms
    cases hms
    simp at hm
  · rw [if_neg hc] at hms
    exact processFrom_level _ _ _ hms (by intro x hx; simp at hx) m hm

theorem acyclic_of_rank (l : List MemberNode) (rank : String → Nat)
    (h : ∀ a b, RefersTo l a b → rank b < rank a) : AcyclicMembers l := by
  intro a htg
  have hlt : ∀ x y, Relation.TransGen (RefersTo l) x y → rank y < rank x := by
    intro x y hxy
    induction hxy with
    | single hs => exact h _ _ hs
    | tail _ hs ih => exact lt_trans (h _ _ hs) ih
  exact absurd (hlt a a htg) (lt_irrefl _)

theorem acyclicABC : AcyclicMembers (initialMembers [] [contactA, contactB, contactC]) := by
  apply acyclic_of_rank _ rankABC
  intro a b h
  have hmap : (initialMembers [] [contactA, contactB, contactC]).map refKey
      = [("A", none), ("B", some "A"), ("C", some "B")] := rfl
  unfold RefersTo at h
  rw [hmap] at h
  simp at h
  rcases h with ⟨rfl, rfl⟩ | ⟨rfl, rfl⟩
  · decide
  · decide

/-- C1 (code bug in the source): on the scenario A (no referrer),
B (referred by A), C (referred by B) presented in that input order, the
pipeline stores `totalDescendants = 1` for A — when A is processed inside
the `forEach`, B's `referrals` array is still empty — although
`calculateTotalDescendants` applied to the final, fully filled member
list returns the true transitive subtree size 2 for A. -/
theorem totalDescendants_staleness_bug :
    (deriveMembers [] [contactA, contactB, contactC]).map
      (fun ms => ms.map (fun m => m.totalDescendants)) = some [1, 1, 0] ∧
    (deriveMembers [] [contactA, contactB, contactC]).map
      (fun ms => calculateTotalDescendants ms (ms.length + 1) "A") = some (some 2) :=
  ⟨rfl, rfl⟩

/-- C3: for every contact list whose referral relation is acyclic, the
depth recursion returns a value at fuel `length + 1` for every start id,
and the whole derivation (which runs both the depth recursion and the
descendant-count recursion for every member) succeeds: the embedding is
total under the acyclicity precondition. -/
theorem derivation_terminates_on_acyclic_input (cells : List Cell) (contacts : List Contact)
    (hacy : AcyclicMembers (initialMembers cells contacts)) :
    (∀ i, (calculateMemberLevel (initialMembers cells contacts)
      ((initialMembers cells contacts).length + 1) i).isSome) ∧
    (deriveMembers cells contacts).isSome := by
  constructor
  · intro i
    exact calculateMemberLevel_isSome _ hacy (Nat.lt_succ_self _) i
  · unfold deriveMembers
    by_cases hc : contacts.length = 0
    · rw [if_pos hc]; rfl
    · rw [if_neg hc]
      apply processFrom_isSome
      · rw [List.nil_append]
        exact hacy
      · rw [List.nil_append]
        intro m hm c hcc
        simp only [initialMembers, List.mem_map] at hm
        obtain ⟨c2, _, rfl⟩ := hm
        simp [toMemberNode] at hcc

/-- Witness for C3 at the concrete acyclic A-B-C scenario. -/
theorem derivation_terminates_witness :
    (deriveMembers [] [contactA, contactB, contactC]).isSome :=
  (derivation_terminates_on_acyclic_input [] [contactA, contactB, contactC] acyclicABC).2

/-- C4: every member of the derived list is in exactly one of the
connected and standby lists. -/
theorem connected_standby_partition (ms : List MemberNode) (m : MemberNode) (hm : m ∈ ms) :
    (m ∈ connectedMembersOf ms ∧ m ∉ standbyMembersOf ms) ∨
    (m ∉ connectedMembersOf ms ∧ m ∈ standbyMembersOf ms) := by
  simp only [connectedMembersOf, standbyMembersOf, List.mem_filter, hm, true_and]
  cases hj : jsTruthy m.referredBy with
  | false =>
    cases hlen : m.referrals.length with
    | zero => right; simp [hj, hlen]
    | succ n => left; simp [hj, hlen]
  | true => left; simp [hj]

/-- Witness for C4 at a concrete member list. -/
theorem connected_standby_partition_witness :
    (ghostMember ∈ connectedMembersOf [ghostMember] ∧
      ghostMember ∉ standbyMembersOf [ghostMember]) ∨
    (ghostMember ∉ connectedMembersOf [ghostMember] ∧
      ghostMember ∈ standbyMembersOf [ghostMember]) :=
  connected_standby_partition [ghostMember] ghostMember (by simp)

/-- C2: for every contact list with distinct ids whose referral relation
is acyclic and whose referrer ids all resolve, the derivation succeeds and
every derived member's `level` is 0 when it has no referrer, and
`1 + level` of its referrer node when it has one. -/
theorem derived_levels_satisfy_depth_recurrence
    (cells : List Cell) (contacts : List Contact)
    (hnd : (contacts.map (fun c => c.id)).Nodup)
    (hres : ∀ c ∈ contacts, ∀ p, jsOrNull c.referred_by = some p →
      ∃ c2 ∈ contacts, c2.id = p)
    (hacy : AcyclicMembers (initialMembers cells contacts)) :
    ∃ ms, deriveMembers cells contacts = some ms ∧
      ∀ m ∈ ms,
        (m.referredBy = none → m.level = 0) ∧
        (∀ p, m.referredBy = some p →
          (∃ m2 ∈ ms, m2.id = p) ∧
          ∀ m2 ∈ ms, m2.id = p → m.level = m2.level + 1) := by
  have hsome := (derivation_terminates_on_acyclic_input cells contacts hacy).2
  obtain ⟨ms, hms⟩ := Option.isSome_iff_exists.mp hsome
  refine ⟨ms, hms, ?_⟩
  intro m hm
  have hndms : (ms.map (fun m => m.id)).Nodup := by
    rw [derived_ids hms]
    exact hnd
  have hlvl := derived_level_eq hms hm
  have hfind := find?_eq_self_of_nodup hndms hm
  rw [calculateMemberLevel_succ, hfind] at hlvl
  constructor
  · intro hnone
    simp only [hnone] at hlvl
    exact (Option.some.injEq _ _).mp hlvl.symm
  · intro p hp
    simp only [hp] at hlvl
    obtain ⟨c, hcmem, hcid, hcrb⟩ := derived_contact_of_mem hms hm
    have hpne : p ≠ "" := jsOrNull_ne_empty (by rw [hcrb, hp])
    rw [if_neg hpne] at hlvl
    obtain ⟨w, hw, hv⟩ := Option.map_eq_some'.mp hlvl
    constructor
    · obtain ⟨c2, hc2mem, hc2id⟩ := hres c hcmem p (by rw [hcrb, hp])
      have hpid : p ∈ ms.map (fun m => m.id) := by
        rw [derived_ids hms]
        exact List.mem_map.mpr ⟨c2, hc2mem, hc2id⟩
      obtain ⟨m2, hm2, hm2id⟩ := List.mem_map.mp hpid
      exact ⟨m2, hm2, hm2id⟩
    · intro m2 hm2 hm2id
      have hlvl2 := derived_level_eq hms hm2
      rw [hm2id] at hlvl2
      have hwmono := calculateMemberLevel_mono ms ms.length p w hw
      rw [hwmono] at hlvl2
      have hw2 : w = m2.level := (Option.some.injEq _ _).mp hlvl2
      rw [← hv, ← hw2]

/-- Witness for C2 at the concrete acyclic A-B-C scenario. -/
theorem derived_levels_witness :
    ∃ ms, deriveMembers [] [contactA, contactB, contactC] = some ms ∧
      ∀ m ∈ ms,
        (m.referredBy = none → m.level = 0) ∧
        (∀ p, m.referredBy = some p →
          (∃ m2 ∈ ms, m2.id = p) ∧
          ∀ m2 ∈ ms, m2.id = p → m.level = m2.level + 1) := by
  apply derived_levels_satisfy_depth_recurrence [] [contactA, contactB, contactC]
    (by decide) ?_ acyclicABC
  intro c hc p hp
  fin_cases hc
  · simp [contactA, jsOrNull] at hp
  · simp only [contactB, contactA, jsOrNull] at hp
    simp at hp
    subst hp
    exact ⟨contactA, by simp, rfl⟩
  · simp only [contactC, contactA, jsOrNull] at hp
    simp at hp
    subst hp
    exact ⟨contactB, by simp, rfl⟩

/-- C10: a derived member whose referrer id resolves to no member gets
depth exactly 1 (the missing referrer acts as a depth-0 root because
`calculateMemberLevel` returns 0 for an unknown id), and it is classified
as connected. -/
theorem dangling_referrer_level_one_connected
    (cells : List Cell) (contacts : List Contact) (ms : List MemberNode)
    (m : MemberNode) (r : String)
    (hms : deriveMembers cells contacts = some ms)
    (hnd : (contacts.map (fun c => c.id)).Nodup)
    (hm : m ∈ ms) (hr : m.referredBy = some r)
    (hmiss : ∀ m2 ∈ ms, m2.id ≠ r) :
    m.level = 1 ∧ m ∈ connectedMembersOf ms := by
  have hndms : (ms.map (fun m => m.id)).Nodup := by
    rw [derived_ids hms]
    exact hnd
  have hlvl := derived_level_eq hms hm
  have hfind := find?_eq_self_of_nodup hndms hm
  obtain ⟨c, hcmem, hcid, hcrb⟩ := derived_contact_of_mem hms hm
  have hrne : r ≠ "" := jsOrNull_ne_empty (by rw [hcrb, hr])
  rw [calculateMemberLevel_succ, hfind] at hlvl
  simp only [hr] at hlvl
  rw [if_neg hrne] at hlvl
  obtain ⟨n, hn⟩ : ∃ n, ms.length = n + 1 :=
    ⟨ms.length - 1, by
      have := List.length_pos.mpr (List.ne_nil_of_mem hm)
      omega⟩
  rw [hn] at hlvl
  have hfr : ms.find? (fun x => x.id == r) = none := by
    rw [List.find?_eq_none]
    intro m2 hm2
    simp [hmiss m2 hm2]
  rw [calculateMemberLevel_succ, hfr] at hlvl
  simp only [Option.map_some'] at hlvl
  constructor
  · exact ((Option.some.injEq _ _).mp hlvl).symm
  · simp [connectedMembersOf, List.mem_filter, hm, jsTruthy, hr, hrne]

/-- Witness for C10 at the concrete dangling-referrer scenario. -/
theorem dangling_referrer_witness :
    ghostMember.level = 1 ∧ ghostMember ∈ connectedMembersOf [ghostMember] :=
  dangling_referrer_level_one_connected [] [contactGhost] [ghostMember]
    ghostMember "GHOST" rfl (by decide) (by simp) rfl (by decide)

theorem isVisible_none_iff (levels : Finset Nat) (expanded : Finset String)
    (m : MemberNode) :
    isVisible levels expanded none m = true ↔
      m.level ∈ levels ∧ (m.level = 0 ∨ m.id ∈ expanded ∨
        ∃ r, m.referredBy = some r ∧ r ≠ "" ∧ r ∈ expanded) := by
  simp only [isVisible]
  cases hrb : m.referredBy with
  | none => simp
  | some r =>
    simp only [hrb]
    simp
    intro _
    tauto

theorem isVisible_focused_iff (levels : Finset Nat) (expanded : Finset String)
    (fl : Nat) (m : MemberNode) :
    isVisible levels expanded (some fl) m = true ↔ m.level = fl := by
  simp [isVisible]

/-- C5: the visibility rule.  When no level is focused, a connected
member is visible iff its level is among the visible levels and it is a
root, an expanded node, or the child of an expanded node; when a level is
focused, a member is visible iff its level equals exactly that level,
regardless of the visible-level set and the expansion state; and an edge
is emitted only when both of its endpoints are visible members. -/
theorem visibility_rule_spec (conn : List MemberNode) (levels : Finset Nat)
    (expanded : Finset String) (focused : Option Nat) (m : MemberNode) :
    (focused = none →
      (m ∈ visibleMembersOf conn levels expanded none ↔
        m ∈ conn ∧ m.level ∈ levels ∧
          (m.level = 0 ∨ m.id ∈ expanded ∨
            ∃ r, m.referredBy = some r ∧ r ≠ "" ∧ r ∈ expanded))) ∧
    (∀ fl, focused = some fl →
      (m ∈ visibleMembersOf conn levels expanded (some fl) ↔
        m ∈ conn ∧ m.level = fl)) ∧
    (∀ s t, (s, t) ∈ edgesOf (visibleMembersOf conn levels expanded focused) →
      (∃ a ∈ visibleMembersOf conn levels expanded focused, a.id = s) ∧
      (∃ b ∈ visibleMembersOf conn levels expanded focused, b.id = t ∧
        b.referredBy = some s)) := by
  refine ⟨?_, ?_, ?_⟩
  · intro _
    rw [visibleMembersOf, List.mem_filter, isVisible_none_iff]
  · intro fl _
    rw [visibleMembersOf, List.mem_filter, isVisible_focused_iff]
  · intro s t h
    simp only [edgesOf, List.mem_filterMap] at h
    obtain ⟨member, hmem, heq⟩ := h
    cases hrb : member.referredBy with
    | none => rw [hrb] at heq; simp at heq
    | some r =>
      rw [hrb] at heq
      simp only [] at heq
      by_cases hc : r ≠ "" ∧ (List.find? (fun m => m.id == r)
          (visibleMembersOf conn levels expanded focused)).isSome
      · rw [if_pos hc] at heq
        have hpair := (Option.some.injEq _ _).mp heq
        have hs : r = s := congrArg Prod.fst hpair
        have ht : member.id = t := congrArg Prod.snd hpair
        obtain ⟨a, hfa⟩ := Option.isSome_iff_exists.mp hc.2
        refine ⟨⟨a, List.mem_of_find?_eq_some hfa, ?_⟩,
          ⟨member, hmem, ht, by rw [hrb, hs]⟩⟩
        have : a.id = r := by simpa using List.find?_some hfa
        rw [this, hs]
      · rw [if_neg hc] at heq
        simp at heq

/-- Witness for C5: a child of an expanded node is visible when no level
is focused, level focusing selects exactly the focused level, and a
concrete emitted edge has both endpoints among the visible members. -/
theorem visibility_rule_witness :
    (memberB ∈ visibleMembersOf [memberA, memberB] ({0, 1, 2, 3, 4} : Finset Nat)
      ({"A"} : Finset String) none) ∧
    (memberB ∈ visibleMembersOf [memberA, memberB] ({0, 1, 2, 3, 4} : Finset Nat)
      (∅ : Finset String) (some 1)) ∧
    ((∃ a ∈ visibleMembersOf [memberA, memberB] ({0, 1, 2, 3, 4} : Finset Nat)
        ({"A"} : Finset String) none, a.id = "A") ∧
      (∃ b ∈ visibleMembersOf [memberA, memberB] ({0, 1, 2, 3, 4} : Finset Nat)
        ({"A"} : Finset String) none, b.id = "B" ∧ b.referredBy = some "A")) := by
  refine ⟨?_, ?_, ?_⟩
  · exact (visibility_rule_spec [memberA, memberB] {0, 1, 2, 3, 4} {"A"} none memberB).1
      rfl |>.mpr ⟨by simp, by decide, Or.inr (Or.inr ⟨"A", rfl, by decide, by decide⟩)⟩
  · exact ((visibility_rule_spec [memberA, memberB] {0, 1, 2, 3, 4} ∅ (some 1) memberB).2.1
      1 rfl).mpr ⟨by simp, rfl⟩
  · exact (visibility_rule_spec [memberA, memberB] {0, 1, 2, 3, 4} {"A"} none memberB).2.2
      "A" "B" (by decide)

/-- C6: visibility is monotonic under expansion: every member visible
with expanded set `E` is still visible with `insert n E`. -/
theorem visibility_monotone_under_expansion
    (conn : List MemberNode) (levels : Finset Nat) (expanded : Finset String)
    (focused : Option Nat) (n : String) (m : MemberNode)
    (h : m ∈ visibleMembersOf conn levels expanded focused) :
    m ∈ visibleMembersOf conn levels (insert n expanded) focused := by
  cases focused with
  | some fl =>
    rw [visibleMembersOf, List.mem_filter] at h ⊢
    refine ⟨h.1, ?_⟩
    rw [isVisible_focused_iff] at h ⊢
    exact h.2
  | none =>
    rw [visibleMembersOf, List.mem_filter] at h ⊢
    refine ⟨h.1, ?_⟩
    rw [isVisible_none_iff] at h ⊢
    obtain ⟨_, h1, h2⟩ := h
    refine ⟨h1, ?_⟩
    rcases h2 with h2 | h2 | ⟨r, hr1, hr2, hr3⟩
    · exact Or.inl h2
    · exact Or.inr (Or.inl (Finset.mem_insert_of_mem h2))
    · exact Or.inr (Or.inr ⟨r, hr1, hr2, Finset.mem_insert_of_mem hr3⟩)

/-- Witness for C6: a member visible under the empty expansion set stays
visible after expanding another node. -/
theorem visibility_monotone_witness :
    memberA ∈ visibleMembersOf [memberA, memberB] ({0, 1, 2, 3, 4} : Finset Nat)
      (insert "B" (∅ : Finset String)) none :=
  visibility_monotone_under_expansion [memberA, memberB] {0, 1, 2, 3, 4} ∅ none "B"
    memberA (by decide)

/-- C7: the expansion toggle flips membership of the toggled id exactly
when the node is found among the connected members with at least one
referral; if the node is not found or has no referrals (a leaf), the
expanded set is returned unchanged. -/
theorem toggle_expansion_spec (conn : List MemberNode) (expanded : Finset String)
    (nodeId : String) :
    ((∀ m, conn.find? (fun x => x.id == nodeId) = some m → m.referrals = []) →
      toggleNodeExpansion conn expanded nodeId = expanded) ∧
    (∀ m, conn.find? (fun x => x.id == nodeId) = some m → m.referrals ≠ [] →
      ∀ x, x ∈ toggleNodeExpansion conn expanded nodeId ↔
        (if x = nodeId then nodeId ∉ expanded else x ∈ expanded)) := by
  constructor
  · intro hleaf
    unfold toggleNodeExpansion
    cases hf : conn.find? (fun x => x.id == nodeId) with
    | none => rfl
    | some m =>
      have hrefs := hleaf m hf
      simp [hrefs]
  · intro m hf hne x
    unfold toggleNodeExpansion
    rw [hf]
    have hlen : m.referrals.length > 0 := by
      cases hrefs : m.referrals with
      | nil => exact absurd hrefs hne
      | cons a as => simp [hrefs]
    simp only [hlen, if_pos]
    by_cases hmem : nodeId ∈ expanded
    · rw [if_pos hmem]
      by_cases hx : x = nodeId
      · subst hx
        simp [hmem]
      · simp [Finset.mem_erase, hx, hmem]
    · rw [if_neg hmem]
      by_cases hx : x = nodeId
      · subst hx
        simp [hmem]
      · simp [Finset.mem_insert, hx, hmem]

/-- Witness for C7: toggling the leaf `memberB` is a no-op, and toggling
the non-leaf `memberA` flips its membership in the expanded set. -/
theorem toggle_expansion_witness :
    toggleNodeExpansion [memberA, memberB] ({"B"} : Finset String) "B" = {"B"} ∧
    ("A" ∈ toggleNodeExpansion [memberA, memberB] (∅ : Finset String) "A" ↔
      (if "A" = "A" then "A" ∉ (∅ : Finset String) else "A" ∈ (∅ : Finset String))) := by
  constructor
  · exact (toggle_expansion_spec [memberA, memberB] {"B"} "B").1
      (by intro m hm; cases hm; rfl)
  · exact (toggle_expansion_spec [memberA, memberB] ∅ "A").2 memberA (by decide)
      (by decide) "A"

theorem buildUpdateData_status (contact : ContactRow) (form : EditForm) :
    (buildUpdateData contact form).status =
      if form.cell_id ≠ "" ∧ contact.cell_id ≠ some form.cell_id then "member"
      else if form.cell_id = "" ∧ jsTruthy contact.cell_id then "pending"
      else contact.status := rfl

/-- C8: a save with an empty name, whatsapp or neighborhood aborts with
the validation error: no update payload is produced, and any contact
store is left unchanged because the update operation never runs. -/
theorem save_aborts_on_missing_required_fields (contact : ContactRow) (form : EditForm)
    (h : form.name = "" ∨ form.whatsapp = "" ∨ form.neighborhood = "") :
    handleSave contact form = none ∧
    ∀ (applyUpdate : List ContactRow → String → UpdateData → List ContactRow)
      (db : List ContactRow), runSave applyUpdate db contact form = db := by
  have hnone : handleSave contact form = none := by
    unfold handleSave
    rw [if_pos h]
  refine ⟨hnone, ?_⟩
  intro applyUpdate db
  unfold runSave
  rw [hnone]

/-- Witness for C8 at a concrete form with an empty name. -/
theorem save_aborts_witness :
    handleSave contactRow1 formMissingName = none ∧
    ∀ (applyUpdate : List ContactRow → String → UpdateData → List ContactRow)
      (db : List ContactRow), runSave applyUpdate db contactRow1 formMissingName = db :=
  save_aborts_on_missing_required_fields contactRow1 formMissingName (Or.inl rfl)

/-- C9: on a save with valid required fields, the status sent in the
update payload is "member" when the form carries a nonempty cell id
different from the contact's current one, "pending" when the form clears
a currently set cell id, and the contact's current status otherwise. -/
theorem save_status_transition (contact : ContactRow) (form : EditForm)
    (hname : form.name ≠ "") (hwhats : form.whatsapp ≠ "")
    (hneigh : form.neighborhood ≠ "") :
    ∃ u, handleSave contact form = some u ∧
      ((form.cell_id ≠ "" ∧ contact.cell_id ≠ some form.cell_id) →
        u.status = "member") ∧
      ((form.cell_id = "" ∧ ∃ c, contact.cell_id = some c ∧ c ≠ "") →
        u.status = "pending") ∧
      ((form.cell_id ≠ "" → contact.cell_id = some form.cell_id) →
        (form.cell_id = "" → contact.cell_id = none ∨ contact.cell_id = some "") →
        u.status = contact.status) := by
  refine ⟨buildUpdateData contact form, ?_, ?_, ?_, ?_⟩
  · unfold handleSave
    rw [if_neg (by push_neg; exact ⟨hname, hwhats, hneigh⟩)]
  · intro hc
    rw [buildUpdateData_status, if_pos hc]
  · intro ⟨hempty, c, hcell, hcne⟩
    rw [buildUpdateData_status, if_neg (fun hc => hc.1 hempty),
      if_pos ⟨hempty, by simp [hcell, jsTruthy, hcne]⟩]
  · intro h1 h2
    rw [buildUpdateData_status,
      if_neg (fun hc => hc.2 (h1 hc.1)),
      if_neg ?_]
    intro hc
    rcases h2 hc.1 with hn | hn <;> rw [hn] at hc <;> simp [jsTruthy] at hc
/-- Witness for C9: assigning a new cell to a cell-less visitor sends
status "member". -/
theorem save_status_transition_witness :
    ∃ u, handleSave contactRow1 validForm = some u ∧ u.status = "member" := by
  obtain ⟨u, hu, h1, _, _⟩ := save_status_transition contactRow1 validForm
    (by decide) (by decide) (by decide)
  exact ⟨u, hu, h1 (by decide)⟩
